import Mathlib

/-- Model of the container: the header of `set.c` (`size`, `capacity`) together
with the byte contents of the element-storage region, modelled as a total map
from byte offsets to byte values. -/
@[ext]
structure SetC where
  size : Nat
  capacity : Nat
  data : Nat → Nat

/-- Model of `set_create`: a fresh container with `size = 0` and `capacity = 0`. -/
def set_create : SetC := ⟨0, 0, fun _ => 0⟩

/-- Model of `set_size`: reads the `size` header field. -/
def set_size (c : SetC) : Nat := c.size

/-- Model of `set_capacity`: reads the `capacity` header field. -/
def set_capacity (c : SetC) : Nat := c.capacity

/-- Model of `set_realloc`: doubles the capacity (with a floor of 1 when the
capacity is 0); `realloc` preserves the stored bytes and the `size` field. -/
def set_realloc (c : SetC) : SetC :=
  { c with capacity := if c.capacity = 0 then 1 else c.capacity * 2 }

/-- Model of `set_has_space`: `capacity - size > 0` in unsigned arithmetic,
which (truncated subtraction) holds exactly when `size < capacity`. -/
def set_has_space (c : SetC) : Bool := decide (0 < c.capacity - c.size)

/-- Model of C `memmove` restricted to the data region: copies `n` bytes from
offset `src` to offset `dst`, reading from the pre-move contents (as `memmove`
does for overlapping ranges). -/
def memmove (d : Nat → Nat) (dst src n : Nat) : Nat → Nat :=
  fun b => if dst ≤ b ∧ b < dst + n then d (src + (b - dst)) else d b

/-- Model of the caller writing the bytes `bs` through a returned slot pointer
at byte offset `off`. -/
def writeBytes (d : Nat → Nat) (off : Nat) (bs : List Nat) : Nat → Nat :=
  fun b => if off ≤ b ∧ b < off + bs.length then bs.getD (b - off) 0 else d b

/-- Model of `_set_add_dst`: grows if there is no space, then returns the
updated container together with the byte offset of the slot handed to the
caller (`type_size * size`, the slot at index `size`), with `size`
incremented. -/
def _set_add_dst (c : SetC) (ts : Nat) : SetC × Nat :=
  let h := if set_has_space c then c else set_realloc c
  ({ h with size := h.size + 1 }, ts * h.size)

/-- Model of `_set_insert_dst`: records `size + 1`, grows if there is no
space, shifts `(size - pos) * type_size` bytes one element slot to the right
with `memmove`, sets the new size, and returns the updated container together
with the byte offset `pos * type_size` of the now-vacant slot at index `pos`. -/
def _set_insert_dst (c : SetC) (ts pos : Nat) : SetC × Nat :=
  let new_length := c.size + 1
  let h := if set_has_space c then c else set_realloc c
  let d := memmove h.data ((pos + 1) * ts) (pos * ts) ((h.size - pos) * ts)
  ({ h with size := new_length, data := d }, pos * ts)

/-- Model of `_set_erase`: shifts `(size - pos - len) * type_size` bytes left
by `len` element slots with `memmove` and decrements `size` by `len`. The
subtractions are `size_t` in C and wrap past zero when `pos + len > size`,
where Nat subtraction truncates instead: the model coincides with the code
exactly under the documented precondition `pos + len ≤ size`, and every
theorem about it carries that hypothesis. -/
def _set_erase (c : SetC) (ts pos len : Nat) : SetC :=
  { c with
    data := memmove c.data (pos * ts) ((pos + len) * ts) ((c.size - pos - len) * ts)
    size := c.size - len }

/-- Model of `_set_remove`: `_set_erase` with `len = 1`. -/
def _set_remove (c : SetC) (ts pos : Nat) : SetC := _set_erase c ts pos 1

/-- Model of `set_pop`: decrements `size`; nothing else is touched. The C
`--size` is a `size_t` decrement that wraps to `SIZE_MAX` when `size = 0`,
where Nat subtraction truncates to 0 instead: the model coincides with the
code exactly under the documented precondition `size > 0`, and every theorem
about it carries that hypothesis. -/
def set_pop (c : SetC) : SetC := { c with size := c.size - 1 }

/-- Model of `_set_reserve`: a no-op when `capacity >= requested`; otherwise
reallocates to exactly the requested capacity, preserving bytes and `size`. -/
def _set_reserve (c : SetC) (ts cap : Nat) : SetC :=
  if c.capacity ≥ cap then c else { c with capacity := cap }

/-- Model of `_set_copy`: a fresh allocation of `size * type_size` data bytes,
`memcpy`-ed from the source (header included), whose `capacity` field is then
set to its `size`. Bytes past the copied region are fresh memory, modelled
as 0. -/
def _set_copy (c : SetC) (ts : Nat) : SetC :=
  { size := c.size, capacity := c.size
    data := fun b => if b < c.size * ts then c.data b else 0 }

/-- Model of the `set_contains` macro of `set.c` under its most charitable
executable reading: a linear scan of indices `0 ≤ i < size` comparing the
data byte at index `i` with the candidate byte (`unsigned char value`). The
scan runs over the first `size` BYTES of the data region whatever the element
width. As written the macro is not even that: its `(&h->data)[i] == value`
indexes a pointer to the incomplete flexible-array type instead of reading
the byte `h->data[i]`, and its `return true` / `return false` statements
exit the function enclosing the macro expansion rather than yielding a
value; the `set_contains` function declared in `set.h` is never defined, so
a client of the header cannot even link a call to it. -/
def set_contains (c : SetC) (value : Nat) : Bool :=
  (List.range c.size).any (fun i => c.data i == value)

/-- Little-endian byte representation of `value` stored in an `n`-byte
element, the memory image a C assignment of an `n`-byte unsigned integer
produces on a little-endian machine. -/
def encodeLE : Nat → Nat → List Nat
  | 0, _ => []
  | n + 1, v => v % 256 :: encodeLE n (v / 256)

/-- Model of the caller writing the element bytes `bs` through the slot
pointer returned (as a byte offset) by `_set_add_dst` or `_set_insert_dst`. -/
def writeAt (r : SetC × Nat) (bs : List Nat) : SetC :=
  { r.1 with data := writeBytes r.1.data r.2 bs }

/-- Model of the caller sequence `*set_add_dst(set_addr) = value`: grab an
append slot and write the element bytes `bs` through the returned offset. -/
def set_push (c : SetC) (ts : Nat) (bs : List Nat) : SetC :=
  writeAt (_set_add_dst c ts) bs

/-- Model of the `set_add` macro at an arbitrary element size, again under
the most charitable executable reading of the source: the containment scan
of `set_contains` compares each of the first `size` data bytes with
`(unsigned char)value` (the candidate reduced mod 256); if no byte matches,
the value's `ts`-byte representation is appended via `set_add_dst`. In the
source itself the append statement is unreachable dead code, because the
`return` statements of the `set_contains` macro exit the enclosing function
before it (and header clients fail to link, see `set_contains`). -/
def set_add (c : SetC) (ts : Nat) (value : Nat) : SetC :=
  if set_contains c (value % 256) then c
  else set_push c ts (encodeLE ts value)

/-- Bytes `d off, d (off+1), ..., d (off+n-1)` as a list. -/
def readBytes (d : Nat → Nat) (off n : Nat) : List Nat :=
  (List.range n).map (fun j => d (off + j))

/-- The `type_size` bytes of the element stored at index `i`. -/
def readElem (c : SetC) (ts i : Nat) : List Nat :=
  readBytes c.data (i * ts) ts

/-- The whole container read back element by element: the list of the byte
blocks of elements `0 ... size - 1`. -/
def readSet (c : SetC) (ts : Nat) : List (List Nat) :=
  (List.range c.size).map (fun i => readElem c ts i)

/-- Model of a whole sequence of append-and-write operations. -/
def pushAll (c : SetC) (ts : Nat) (l : List (List Nat)) : SetC :=
  l.foldl (fun a bs => set_push a ts bs) c

/-- The capacity produced by one growth trigger: the `new_capacity` formula of
`set_realloc`. -/
def growCap (k : Nat) : Nat := if k = 0 then 1 else k * 2

/-- The capacity after `n` successive growth triggers starting from the
capacity 0 of a fresh container. -/
def capAfter : Nat → Nat
  | 0 => 0
  | n + 1 => growCap (capAfter n)

example : (_set_add_dst set_create 4).1.size = 1 := by decide
example : (_set_add_dst set_create 4).1.capacity = 1 := by decide
example : readSet (set_push (set_push set_create 2 [5, 6]) 2 [7, 8]) 2
    = [[5, 6], [7, 8]] := by decide
example : readSet ((_set_insert_dst (set_push (set_push set_create 2 [5, 6]) 2 [7, 8]) 2 1).1) 2
    = [[5, 6], [7, 8], [7, 8]] := by decide
example : readSet (set_add (set_add (set_add set_create 1 3) 1 3) 1 4) 1 = [[3], [4]] := by decide
example : (set_add (set_add (set_add set_create 1 3) 1 3) 1 4).size = 2 := by decide
example : encodeLE 4 256 = [0, 1, 0, 0] := by decide
example : encodeLE 4 0 = [0, 0, 0, 0] := by decide

theorem memmove_of_lt (d : Nat → Nat) (dst src n b : Nat) (h : b < dst) :
    memmove d dst src n b = d b := by
  simp only [memmove]
  rw [if_neg]
  omega

theorem memmove_of_ge (d : Nat → Nat) (dst src n b : Nat) (h : dst + n ≤ b) :
    memmove d dst src n b = d b := by
  simp only [memmove]
  rw [if_neg]
  omega

theorem memmove_of_mem (d : Nat → Nat) (dst src n b : Nat) (h1 : dst ≤ b) (h2 : b < dst + n) :
    memmove d dst src n b = d (src + (b - dst)) := by
  simp only [memmove]
  rw [if_pos ⟨h1, h2⟩]

theorem writeBytes_of_lt (d : Nat → Nat) (off : Nat) (bs : List Nat) (b : Nat) (h : b < off) :
    writeBytes d off bs b = d b := by
  simp only [writeBytes]
  rw [if_neg]
  omega

theorem writeBytes_of_ge (d : Nat → Nat) (off : Nat) (bs : List Nat) (b : Nat)
    (h : off + bs.length ≤ b) :
    writeBytes d off bs b = d b := by
  simp only [writeBytes]
  rw [if_neg]
  omega

theorem writeBytes_of_mem (d : Nat → Nat) (off : Nat) (bs : List Nat) (b : Nat)
    (h1 : off ≤ b) (h2 : b < off + bs.length) :
    writeBytes d off bs b = bs.getD (b - off) 0 := by
  simp only [writeBytes]
  rw [if_pos ⟨h1, h2⟩]

theorem elem_byte_lt (i j ts n : Nat) (hi : i < n) (hj : j < ts) : i * ts + j < n * ts :=
  calc i * ts + j < i * ts + ts := by omega
  _ = (i + 1) * ts := by ring
  _ ≤ n * ts := Nat.mul_le_mul_right ts hi

theorem readBytes_length (d : Nat → Nat) (off n : Nat) : (readBytes d off n).length = n := by
  simp [readBytes]

theorem readBytes_congr (d1 d2 : Nat → Nat) (a b n : Nat)
    (h : ∀ j, j < n → d1 (a + j) = d2 (b + j)) :
    readBytes d1 a n = readBytes d2 b n := by
  simp only [readBytes]
  exact List.map_congr_left (fun j hj => h j (List.mem_range.mp hj))

theorem readBytes_writeBytes_self (d : Nat → Nat) (off : Nat) (bs : List Nat) :
    readBytes (writeBytes d off bs) off bs.length = bs := by
  apply List.ext_getElem
  · simp [readBytes]
  · intro i h1 h2
    simp only [readBytes, List.getElem_map, List.getElem_range]
    rw [writeBytes_of_mem _ _ _ _ (by omega) (by omega)]
    simp only [Nat.add_sub_cancel_left]
    exact List.getD_eq_getElem bs 0 h2

theorem readElem_length (c : SetC) (ts i : Nat) : (readElem c ts i).length = ts := by
  simp [readElem, readBytes]

theorem readSet_length (c : SetC) (ts : Nat) : (readSet c ts).length = c.size := by
  simp [readSet]

theorem readSet_getElem (c : SetC) (ts i : Nat) (h : i < (readSet c ts).length) :
    (readSet c ts)[i] = readElem c ts i := by
  simp [readSet]

theorem set_realloc_size (c : SetC) : (set_realloc c).size = c.size := rfl

theorem set_realloc_data (c : SetC) : (set_realloc c).data = c.data := rfl

theorem set_realloc_capacity (c : SetC) :
    (set_realloc c).capacity = max 1 (c.capacity * 2) := by
  simp only [set_realloc]
  split <;> omega

theorem grow_size (c : SetC) :
    ((if set_has_space c then c else set_realloc c) : SetC).size = c.size := by
  split <;> rfl

theorem grow_data (c : SetC) :
    ((if set_has_space c then c else set_realloc c) : SetC).data = c.data := by
  split <;> rfl

theorem grow_capacity_lt (c : SetC) (h : c.size ≤ c.capacity) :
    c.size < ((if set_has_space c then c else set_realloc c) : SetC).capacity := by
  split
  case isTrue hs =>
    simp only [set_has_space, decide_eq_true_eq] at hs
    omega
  case isFalse hs =>
    rw [set_realloc_capacity]
    omega

theorem set_has_space_false_iff (c : SetC) :
    set_has_space c = false ↔ c.capacity - c.size = 0 := by
  simp only [set_has_space, decide_eq_false_iff_not, Nat.not_lt]
  omega

theorem _set_add_dst_snd (c : SetC) (ts : Nat) : (_set_add_dst c ts).2 = ts * c.size := by
  simp only [_set_add_dst, grow_size]

theorem _set_add_dst_size (c : SetC) (ts : Nat) : (_set_add_dst c ts).1.size = c.size + 1 := by
  simp only [_set_add_dst, grow_size]

theorem _set_add_dst_data (c : SetC) (ts : Nat) : (_set_add_dst c ts).1.data = c.data := by
  simp only [_set_add_dst, grow_data]

theorem set_push_size (c : SetC) (ts : Nat) (bs : List Nat) :
    (set_push c ts bs).size = c.size + 1 := by
  simp only [set_push, writeAt, _set_add_dst_size]

theorem readElem_push_lt (c : SetC) (ts : Nat) (bs : List Nat) (i : Nat) (hi : i < c.size) :
    readElem (set_push c ts bs) ts i = readElem c ts i := by
  simp only [readElem, set_push, writeAt, _set_add_dst_data, _set_add_dst_snd]
  apply readBytes_congr
  intro j hj
  exact writeBytes_of_lt _ _ _ _
    (by rw [Nat.mul_comm ts c.size]; exact elem_byte_lt i j ts c.size hi hj)

theorem readElem_push_self (c : SetC) (ts : Nat) (bs : List Nat) (hbs : bs.length = ts) :
    readElem (set_push c ts bs) ts c.size = bs := by
  simp only [readElem, set_push, writeAt, _set_add_dst_data, _set_add_dst_snd]
  have h := readBytes_writeBytes_self c.data (ts * c.size) bs
  rw [hbs] at h
  rw [Nat.mul_comm c.size ts]
  exact h

theorem readSet_push (c : SetC) (ts : Nat) (bs : List Nat) (hbs : bs.length = ts) :
    readSet (set_push c ts bs) ts = readSet c ts ++ [bs] := by
  apply List.ext_getElem
  · simp [readSet_length, set_push_size]
  · intro i h1 h2
    rw [readSet_getElem]
    rw [readSet_length, set_push_size] at h1
    by_cases hi : i < c.size
    · rw [List.getElem_append_left (by rw [readSet_length]; exact hi)]
      rw [readSet_getElem]
      exact readElem_push_lt c ts bs i hi
    · have he : i = c.size := by omega
      subst he
      rw [List.getElem_append_right (by rw [readSet_length])]
      simp only [readSet_length, Nat.sub_self, List.getElem_cons_zero]
      exact readElem_push_self c ts bs hbs

theorem pushAll_spec (c : SetC) (ts : Nat) (l : List (List Nat))
    (h : ∀ bs ∈ l, bs.length = ts) :
    (pushAll c ts l).size = c.size + l.length ∧
    readSet (pushAll c ts l) ts = readSet c ts ++ l := by
  induction l generalizing c with
  | nil => simp [pushAll]
  | cons bs l ih =>
    have hbs : bs.length = ts := h bs (by simp)
    have hl : ∀ x ∈ l, x.length = ts := fun x hx => h x (by simp [hx])
    have step : pushAll c ts (bs :: l) = pushAll (set_push c ts bs) ts l := rfl
    rw [step]
    obtain ⟨s1, s2⟩ := ih (set_push c ts bs) hl
    constructor
    · rw [s1, set_push_size]
      simp only [List.length_cons]
      omega
    · rw [s2, readSet_push c ts bs hbs]
      simp

theorem readSet_create (ts : Nat) : readSet set_create ts = [] := rfl

theorem memmove_zero (d : Nat → Nat) (dst src : Nat) : memmove d dst src 0 = d := by
  funext b
  simp only [memmove]
  rw [if_neg]
  omega

theorem _set_insert_dst_snd (c : SetC) (ts pos : Nat) :
    (_set_insert_dst c ts pos).2 = pos * ts := rfl

theorem _set_insert_dst_size (c : SetC) (ts pos : Nat) :
    (_set_insert_dst c ts pos).1.size = c.size + 1 := rfl

theorem _set_insert_dst_data (c : SetC) (ts pos : Nat) :
    (_set_insert_dst c ts pos).1.data
      = memmove c.data ((pos + 1) * ts) (pos * ts) ((c.size - pos) * ts) := by
  simp only [_set_insert_dst, grow_data, grow_size]

theorem writeAt_size (r : SetC × Nat) (bs : List Nat) : (writeAt r bs).size = r.1.size := rfl

theorem writeAt_data (r : SetC × Nat) (bs : List Nat) :
    (writeAt r bs).data = writeBytes r.1.data r.2 bs := rfl

theorem readElem_insert_lt (c : SetC) (ts pos : Nat) (bs : List Nat) (i : Nat) (hi : i < pos) :
    readElem (writeAt (_set_insert_dst c ts pos) bs) ts i = readElem c ts i := by
  simp only [readElem, writeAt_data, _set_insert_dst_data, _set_insert_dst_snd]
  apply readBytes_congr
  intro j hj
  have hb : i * ts + j < pos * ts := elem_byte_lt i j ts pos hi hj
  rw [writeBytes_of_lt _ _ _ _ hb]
  have e1 : (pos + 1) * ts = pos * ts + ts := by ring
  exact memmove_of_lt _ _ _ _ _ (by omega)

theorem readElem_insert_self (c : SetC) (ts pos : Nat) (bs : List Nat) (hbs : bs.length = ts) :
    readElem (writeAt (_set_insert_dst c ts pos) bs) ts pos = bs := by
  simp only [readElem, writeAt_data, _set_insert_dst_data, _set_insert_dst_snd]
  have h := readBytes_writeBytes_self
    (memmove c.data ((pos + 1) * ts) (pos * ts) ((c.size - pos) * ts)) (pos * ts) bs
  rw [hbs] at h
  exact h

theorem readElem_insert_gt (c : SetC) (ts pos : Nat) (bs : List Nat) (i : Nat)
    (hbs : bs.length = ts) (hi1 : pos < i) (hi2 : i ≤ c.size) :
    readElem (writeAt (_set_insert_dst c ts pos) bs) ts i = readElem c ts (i - 1) := by
  simp only [readElem, writeAt_data, _set_insert_dst_data, _set_insert_dst_snd]
  apply readBytes_congr
  intro j hj
  have e1 : (pos + 1) * ts = pos * ts + ts := by ring
  have ei : (i - 1) + 1 = i := by omega
  have e2 : (i - 1) * ts + ts = i * ts := by
    calc (i - 1) * ts + ts = ((i - 1) + 1) * ts := by ring
    _ = i * ts := by rw [ei]
  have e3 : (i + 1) * ts = i * ts + ts := by ring
  have hpi : (pos + 1) * ts ≤ i * ts := Nat.mul_le_mul_right ts (by omega)
  have his : (i + 1) * ts ≤ (c.size + 1) * ts := Nat.mul_le_mul_right ts (by omega)
  have es : (pos + 1) + (c.size - pos) = c.size + 1 := by omega
  have e6 : (pos + 1) * ts + (c.size - pos) * ts = (c.size + 1) * ts := by
    calc (pos + 1) * ts + (c.size - pos) * ts = ((pos + 1) + (c.size - pos)) * ts := by ring
    _ = (c.size + 1) * ts := by rw [es]
  rw [writeBytes_of_ge _ _ _ _ (by rw [hbs]; omega)]
  rw [memmove_of_mem _ _ _ _ _ (by omega) (by omega)]
  congr 1
  omega

theorem readSet_insert (c : SetC) (ts pos : Nat) (bs : List Nat)
    (hpos : pos ≤ c.size) (hbs : bs.length = ts) :
    readSet (writeAt (_set_insert_dst c ts pos) bs) ts
      = (readSet c ts).take pos ++ bs :: (readSet c ts).drop pos := by
  apply List.ext_getElem
  · simp only [readSet_length, writeAt_size, _set_insert_dst_size, List.length_append,
      List.length_take, List.length_cons, List.length_drop]
    omega
  · intro i h1 h2
    rw [readSet_getElem]
    rw [readSet_length, writeAt_size, _set_insert_dst_size] at h1
    by_cases hi : i < pos
    · rw [List.getElem_append_left (by simp only [List.length_take, readSet_length]; omega)]
      rw [List.getElem_take, readSet_getElem]
      exact readElem_insert_lt c ts pos bs i hi
    · by_cases he : i = pos
      · subst he
        rw [List.getElem_append_right (by simp only [List.length_take, readSet_length]; omega)]
        have ht : (List.take i (readSet c ts)).length = i := by
          simp only [List.length_take, readSet_length]
          omega
        simp only [ht, Nat.sub_self, List.getElem_cons_zero]
        exact readElem_insert_self c ts i bs hbs
      · have hgt : pos < i := by omega
        rw [List.getElem_append_right (by simp only [List.length_take, readSet_length]; omega)]
        have ht : (List.take pos (readSet c ts)).length = pos := by
          simp only [List.length_take, readSet_length]
          omega
        obtain ⟨k, hk⟩ : ∃ k, i - pos = k + 1 := ⟨i - pos - 1, by omega⟩
        simp only [ht, hk, List.getElem_cons_succ]
        rw [List.getElem_drop, readSet_getElem]
        have hidx : pos + k = i - 1 := by omega
        rw [hidx]
        exact readElem_insert_gt c ts pos bs i hbs hgt (by omega)

theorem _set_erase_size (c : SetC) (ts pos len : Nat) :
    (_set_erase c ts pos len).size = c.size - len := rfl

theorem _set_erase_capacity (c : SetC) (ts pos len : Nat) :
    (_set_erase c ts pos len).capacity = c.capacity := rfl

theorem _set_erase_data (c : SetC) (ts pos len : Nat) :
    (_set_erase c ts pos len).data
      = memmove c.data (pos * ts) ((pos + len) * ts) ((c.size - pos - len) * ts) := rfl

theorem readElem_erase_lt (c : SetC) (ts pos len : Nat) (i : Nat) (hi : i < pos) :
    readElem (_set_erase c ts pos len) ts i = readElem c ts i := by
  simp only [readElem, _set_erase_data]
  apply readBytes_congr
  intro j hj
  exact memmove_of_lt _ _ _ _ _ (elem_byte_lt i j ts pos hi hj)

theorem readElem_erase_ge (c : SetC) (ts pos len : Nat) (i : Nat)
    (h : pos + len ≤ c.size) (hi1 : pos ≤ i) (hi2 : i < c.size - len) :
    readElem (_set_erase c ts pos len) ts i = readElem c ts (i + len) := by
  simp only [readElem, _set_erase_data]
  apply readBytes_congr
  intro j hj
  have a1 : (pos + len) * ts = pos * ts + len * ts := by ring
  have a2 : (i + len) * ts = i * ts + len * ts := by ring
  have a3 : pos * ts ≤ i * ts := Nat.mul_le_mul_right ts hi1
  have a4 : (i + 1) * ts = i * ts + ts := by ring
  have es : pos + (c.size - pos - len) = c.size - len := by omega
  have a5 : pos * ts + (c.size - pos - len) * ts = (c.size - len) * ts := by
    calc pos * ts + (c.size - pos - len) * ts = (pos + (c.size - pos - len)) * ts := by ring
    _ = (c.size - len) * ts := by rw [es]
  have a6 : (i + 1) * ts ≤ (c.size - len) * ts := Nat.mul_le_mul_right ts (by omega)
  rw [memmove_of_mem _ _ _ _ _ (by omega) (by omega)]
  congr 1
  omega

theorem readSet_erase (c : SetC) (ts pos len : Nat) (h : pos + len ≤ c.size) :
    readSet (_set_erase c ts pos len) ts
      = (readSet c ts).take pos ++ (readSet c ts).drop (pos + len) := by
  apply List.ext_getElem
  · simp only [readSet_length, _set_erase_size, List.length_append, List.length_take,
      List.length_drop]
    omega
  · intro i h1 h2
    rw [readSet_getElem]
    rw [readSet_length, _set_erase_size] at h1
    by_cases hi : i < pos
    · rw [List.getElem_append_left (by simp only [List.length_take, readSet_length]; omega)]
      rw [List.getElem_take, readSet_getElem]
      exact readElem_erase_lt c ts pos len i hi
    · rw [List.getElem_append_right (by simp only [List.length_take, readSet_length]; omega)]
      have ht : (List.take pos (readSet c ts)).length = pos := by
        simp only [List.length_take, readSet_length]
        omega
      simp only [ht]
      rw [List.getElem_drop, readSet_getElem]
      have hidx : pos + len + (i - pos) = i + len := by omega
      rw [hidx]
      exact readElem_erase_ge c ts pos len i h (by omega) h1

theorem _set_add_dst_capacity (c : SetC) (ts : Nat) :
    (_set_add_dst c ts).1.capacity
      = ((if set_has_space c then c else set_realloc c) : SetC).capacity := by
  simp only [_set_add_dst]

theorem _set_insert_dst_capacity (c : SetC) (ts pos : Nat) :
    (_set_insert_dst c ts pos).1.capacity
      = ((if set_has_space c then c else set_realloc c) : SetC).capacity := by
  simp only [_set_insert_dst]

theorem writeAt_capacity (r : SetC × Nat) (bs : List Nat) :
    (writeAt r bs).capacity = r.1.capacity := rfl

theorem capAfter_succ (n : Nat) : capAfter (n + 1) = 2 ^ n := by
  induction n with
  | zero => rfl
  | succ m ih =>
    show growCap (capAfter (m + 1)) = 2 ^ (m + 1)
    rw [ih, growCap]
    have hz : 2 ^ m ≠ 0 := Nat.pos_iff_ne_zero.mp (Nat.pos_pow_of_pos m (by omega))
    rw [if_neg hz]
    ring

/-- C1: evaluation of the add path at the failing input, showing the code
contradicts the claim. The container holds one 4-byte element, the value 256
(bytes `00 01 00 00`); the candidate 0 (bytes `00 00 00 00`) is not among
its elements, so the claim requires the add to append it and raise `size`
by 1. Instead the containment scan of the code compares the first `size`
data BYTES with `(unsigned char)value`, finds `data[0] == 0`, and no-ops:
the container is returned unchanged with `size` still 1. (This is already
the most charitable reading of the source; in the source itself the append
branch of the macro is unreachable, see `set_contains` and `set_add`.) -/
theorem set_add_mismatch_at_failing_input :
    ((set_push set_create 4 (encodeLE 4 256)).size = 1 ∧
      ¬ encodeLE 4 0 ∈ readSet (set_push set_create 4 (encodeLE 4 256)) 4) ∧
    set_add (set_push set_create 4 (encodeLE 4 256)) 4 0
      = set_push set_create 4 (encodeLE 4 256) := by
  refine ⟨⟨by decide, by decide⟩, ?_⟩
  simp only [set_add]
  rw [if_pos (by decide)]

/-- C2: for a container of `n` elements and a position `p ≤ n`,
`_set_insert_dst` returns the slot at index `p` (byte offset `p * ts`),
increments `size` to `n + 1`, and after the caller writes the new element
bytes, reading indices `0 .. n` yields the original sequence with the new
element spliced in at index `p` and the rest in original relative order. -/
theorem insert_slot_spec (c : SetC) (ts pos : Nat) (bs : List Nat)
    (hpos : pos ≤ c.size) (hbs : bs.length = ts) :
    (_set_insert_dst c ts pos).2 = pos * ts ∧
    (_set_insert_dst c ts pos).1.size = c.size + 1 ∧
    readSet (writeAt (_set_insert_dst c ts pos) bs) ts
      = (readSet c ts).take pos ++ bs :: (readSet c ts).drop pos :=
  ⟨rfl, rfl, readSet_insert c ts pos bs hpos hbs⟩

/-- Witness for C2: insert `[9, 9]` at position 1 of the 2-byte-element
container holding `[1, 2]` and `[3, 4]`. -/
theorem insert_slot_spec_witness :
    (_set_insert_dst (set_push (set_push set_create 2 [1, 2]) 2 [3, 4]) 2 1).2 = 1 * 2 ∧
    (_set_insert_dst (set_push (set_push set_create 2 [1, 2]) 2 [3, 4]) 2 1).1.size
      = (set_push (set_push set_create 2 [1, 2]) 2 [3, 4]).size + 1 ∧
    readSet (writeAt (_set_insert_dst (set_push (set_push set_create 2 [1, 2]) 2 [3, 4]) 2 1)
        [9, 9]) 2
      = (readSet (set_push (set_push set_create 2 [1, 2]) 2 [3, 4]) 2).take 1
        ++ [9, 9] :: (readSet (set_push (set_push set_create 2 [1, 2]) 2 [3, 4]) 2).drop 1 :=
  insert_slot_spec (set_push (set_push set_create 2 [1, 2]) 2 [3, 4]) 2 1 [9, 9]
    (by decide) (by decide)

/-- C3: growth is triggered exactly when `capacity - size == 0` (under the
invariant `size ≤ capacity`, exactly when `capacity = size`), and
`set_realloc` reallocates to `max 1 (capacity * 2)` slots preserving the
element bytes and `size`; starting from capacity 0, `n + 1` successive growth
triggers produce capacity `2 ^ n`, i.e. the sequence 1, 2, 4, 8, ... -/
theorem growth_policy_spec (c : SetC) (h : c.size ≤ c.capacity) (n : Nat) :
    (set_has_space c = false ↔ c.capacity = c.size) ∧
    (set_realloc c).capacity = max 1 (c.capacity * 2) ∧
    (set_realloc c).size = c.size ∧
    (set_realloc c).data = c.data ∧
    (set_realloc c).capacity = growCap c.capacity ∧
    capAfter (n + 1) = 2 ^ n := by
  refine ⟨?_, set_realloc_capacity c, rfl, rfl, rfl, capAfter_succ n⟩
  rw [set_has_space_false_iff]
  omega

/-- Witness for C3: a full container with `size = capacity = 2`, and the
fourth growth trigger from capacity 0 yields capacity 8. -/
theorem growth_policy_spec_witness :
    (set_has_space ⟨2, 2, fun _ => 0⟩ = false
      ↔ (⟨2, 2, fun _ => 0⟩ : SetC).capacity = (⟨2, 2, fun _ => 0⟩ : SetC).size) ∧
    (set_realloc ⟨2, 2, fun _ => 0⟩).capacity = max 1 ((⟨2, 2, fun _ => 0⟩ : SetC).capacity * 2) ∧
    (set_realloc ⟨2, 2, fun _ => 0⟩).size = (⟨2, 2, fun _ => 0⟩ : SetC).size ∧
    (set_realloc ⟨2, 2, fun _ => 0⟩).data = (⟨2, 2, fun _ => 0⟩ : SetC).data ∧
    (set_realloc ⟨2, 2, fun _ => 0⟩).capacity = growCap (⟨2, 2, fun _ => 0⟩ : SetC).capacity ∧
    capAfter (3 + 1) = 2 ^ 3 :=
  growth_policy_spec ⟨2, 2, fun _ => 0⟩ (by decide) 3

/-- C4: `_set_copy` produces a container with the same `size`, with capacity
exactly equal to the source's `size` (tight, regardless of the source's
capacity), and with the first `size` elements byte-identical to the
source's. Independence of the two containers is automatic in this
embedding, where every operation returns a new value. -/
theorem copy_spec (c : SetC) (ts : Nat) :
    (_set_copy c ts).size = c.size ∧
    (_set_copy c ts).capacity = c.size ∧
    readSet (_set_copy c ts) ts = readSet c ts := by
  refine ⟨rfl, rfl, ?_⟩
  apply List.ext_getElem
  · rw [readSet_length, readSet_length]
    rfl
  · intro i h1 h2
    rw [readSet_getElem, readSet_getElem]
    rw [readSet_length] at h2
    simp only [readElem]
    apply readBytes_congr
    intro j hj
    show (_set_copy c ts).data (i * ts + j) = c.data (i * ts + j)
    simp only [_set_copy]
    rw [if_pos (elem_byte_lt i j ts c.size h2 hj)]

/-- C5: `_set_erase` with `pos + len ≤ size` shifts the elements at index
`≥ pos + len` left by `len` slots, decrements `size` by `len` (so reading
back yields the original sequence with indices `pos .. pos+len-1` deleted,
order preserved), never changes capacity; and `_set_remove` is exactly
`_set_erase` with `len = 1`. -/
theorem erase_range_spec (c : SetC) (ts pos len : Nat) (h : pos + len ≤ c.size) :
    (_set_erase c ts pos len).size = c.size - len ∧
    (_set_erase c ts pos len).capacity = c.capacity ∧
    readSet (_set_erase c ts pos len) ts
      = (readSet c ts).take pos ++ (readSet c ts).drop (pos + len) ∧
    (∀ p, _set_remove c ts p = _set_erase c ts p 1) :=
  ⟨rfl, rfl, readSet_erase c ts pos len h, fun _ => rfl⟩

/-- Witness for C5: erase 1 element at position 1 from the byte container
holding 1, 2, 3. -/
theorem erase_range_spec_witness :
    (_set_erase (pushAll set_create 1 [[1], [2], [3]]) 1 1 1).size
      = (pushAll set_create 1 [[1], [2], [3]]).size - 1 ∧
    (_set_erase (pushAll set_create 1 [[1], [2], [3]]) 1 1 1).capacity
      = (pushAll set_create 1 [[1], [2], [3]]).capacity ∧
    readSet (_set_erase (pushAll set_create 1 [[1], [2], [3]]) 1 1 1) 1
      = (readSet (pushAll set_create 1 [[1], [2], [3]]) 1).take 1
        ++ (readSet (pushAll set_create 1 [[1], [2], [3]]) 1).drop (1 + 1) ∧
    (∀ p, _set_remove (pushAll set_create 1 [[1], [2], [3]]) 1 p
      = _set_erase (pushAll set_create 1 [[1], [2], [3]]) 1 p 1) :=
  erase_range_spec (pushAll set_create 1 [[1], [2], [3]]) 1 1 1 (by decide)

/-- C6: `_set_reserve` with a requested capacity at most the current one is a
no-op leaving the container unchanged; with a larger request it sets the
capacity to exactly the requested value, leaving `size` and the element bytes
unchanged. -/
theorem reserve_spec (c : SetC) (ts k : Nat) :
    (k ≤ c.capacity → _set_reserve c ts k = c) ∧
    (c.capacity < k →
      (_set_reserve c ts k).capacity = k ∧
      (_set_reserve c ts k).size = c.size ∧
      (_set_reserve c ts k).data = c.data) := by
  constructor
  · intro h
    simp only [_set_reserve]
    rw [if_pos h]
  · intro h
    simp only [_set_reserve]
    rw [if_neg (by omega)]
    exact ⟨rfl, rfl, rfl⟩

/-- Witness for C6: on a container of capacity 2, reserving 2 is a no-op and
reserving 5 yields capacity exactly 5. -/
theorem reserve_spec_witness :
    (_set_reserve ⟨1, 2, fun _ => 0⟩ 4 2 = ⟨1, 2, fun _ => 0⟩) ∧
    ((_set_reserve ⟨1, 2, fun _ => 0⟩ 4 5).capacity = 5 ∧
     (_set_reserve ⟨1, 2, fun _ => 0⟩ 4 5).size = (⟨1, 2, fun _ => 0⟩ : SetC).size ∧
     (_set_reserve ⟨1, 2, fun _ => 0⟩ 4 5).data = (⟨1, 2, fun _ => 0⟩ : SetC).data) :=
  ⟨(reserve_spec ⟨1, 2, fun _ => 0⟩ 4 2).1 (by decide),
   (reserve_spec ⟨1, 2, fun _ => 0⟩ 4 5).2 (by decide)⟩

/-- C7: starting from a fresh container, a sequence of `n` append-and-write
operations yields `size = n` with the elements read back in exactly insertion
order; and each `_set_add_dst` returns the slot at index `size` (byte offset
`ts * size`) and increments `size`. -/
theorem append_sequence_spec (ts : Nat) (l : List (List Nat))
    (h : ∀ bs ∈ l, bs.length = ts) :
    (pushAll set_create ts l).size = l.length ∧
    readSet (pushAll set_create ts l) ts = l ∧
    ∀ c : SetC, (_set_add_dst c ts).2 = ts * c.size ∧
      (_set_add_dst c ts).1.size = c.size + 1 := by
  obtain ⟨s1, s2⟩ := pushAll_spec set_create ts l h
  refine ⟨?_, ?_, fun c => ⟨_set_add_dst_snd c ts, _set_add_dst_size c ts⟩⟩
  · rw [s1]
    exact Nat.zero_add l.length
  · rw [s2, readSet_create]
    rfl

/-- Witness for C7: appending the bytes 1, 2, 3 to a fresh container. -/
theorem append_sequence_spec_witness :
    (pushAll set_create 1 [[1], [2], [3]]).size = ([[1], [2], [3]] : List (List Nat)).length ∧
    readSet (pushAll set_create 1 [[1], [2], [3]]) 1 = [[1], [2], [3]] ∧
    ∀ c : SetC, (_set_add_dst c 1).2 = 1 * c.size ∧
      (_set_add_dst c 1).1.size = c.size + 1 :=
  append_sequence_spec 1 [[1], [2], [3]] (by decide)

/-- C8: on a container with `size > 0`, `set_pop` decrements `size` by
exactly 1 and changes nothing else: the capacity and every data byte
(including the vacated slot, which is not zeroed) are unchanged. -/
theorem pop_spec (c : SetC) (h : 0 < c.size) :
    (set_pop c).size + 1 = c.size ∧
    (set_pop c).capacity = c.capacity ∧
    (set_pop c).data = c.data := by
  refine ⟨?_, rfl, rfl⟩
  show c.size - 1 + 1 = c.size
  omega

/-- Witness for C8: popping a container of size 2. -/
theorem pop_spec_witness :
    (set_pop ⟨2, 3, fun _ => 0⟩).size + 1 = (⟨2, 3, fun _ => 0⟩ : SetC).size ∧
    (set_pop ⟨2, 3, fun _ => 0⟩).capacity = (⟨2, 3, fun _ => 0⟩ : SetC).capacity ∧
    (set_pop ⟨2, 3, fun _ => 0⟩).data = (⟨2, 3, fun _ => 0⟩ : SetC).data :=
  pop_spec ⟨2, 3, fun _ => 0⟩ (by decide)

/-- C9: the invariant `size ≤ capacity` holds for a fresh container (both 0)
and is preserved by every operation under that operation's stated
preconditions: append-slot and insert-slot unconditionally, erase-range
under `pos + len ≤ size`, remove under `pos < size`, pop under `size > 0`
(the preconditions under which the Nat model coincides with the `size_t`
arithmetic of the code), reserve and copy unconditionally. -/
theorem size_le_capacity_spec (c : SetC) (h : c.size ≤ c.capacity) :
    set_create.size ≤ set_create.capacity ∧
    (∀ ts, (_set_add_dst c ts).1.size ≤ (_set_add_dst c ts).1.capacity) ∧
    (∀ ts pos, (_set_insert_dst c ts pos).1.size ≤ (_set_insert_dst c ts pos).1.capacity) ∧
    (∀ ts pos len, pos + len ≤ c.size →
      (_set_erase c ts pos len).size ≤ (_set_erase c ts pos len).capacity) ∧
    (∀ ts pos, pos < c.size →
      (_set_remove c ts pos).size ≤ (_set_remove c ts pos).capacity) ∧
    (0 < c.size → (set_pop c).size ≤ (set_pop c).capacity) ∧
    (∀ ts k, (_set_reserve c ts k).size ≤ (_set_reserve c ts k).capacity) ∧
    (∀ ts, (_set_copy c ts).size ≤ (_set_copy c ts).capacity) := by
  refine ⟨Nat.le_refl 0, ?_, ?_, ?_, ?_, ?_, ?_, ?_⟩
  · intro ts
    rw [_set_add_dst_size, _set_add_dst_capacity]
    exact grow_capacity_lt c h
  · intro ts pos
    rw [_set_insert_dst_size, _set_insert_dst_capacity]
    exact grow_capacity_lt c h
  · intro ts pos len hpre
    rw [_set_erase_size, _set_erase_capacity]
    omega
  · intro ts pos hpre
    show (_set_erase c ts pos 1).size ≤ (_set_erase c ts pos 1).capacity
    rw [_set_erase_size, _set_erase_capacity]
    omega
  · intro hpre
    show c.size - 1 ≤ c.capacity
    omega
  · intro ts k
    simp only [_set_reserve]
    split
    case isTrue hk => exact h
    case isFalse hk =>
      show c.size ≤ k
      omega
  · intro ts
    exact Nat.le_refl c.size

/-- Witness for C9: the invariant is preserved from a container with
`size = 1`, `capacity = 2`, with each precondition instantiated at a
concrete in-range argument. -/
theorem size_le_capacity_spec_witness :
    set_create.size ≤ set_create.capacity ∧
    (_set_add_dst ⟨1, 2, fun _ => 0⟩ 4).1.size
      ≤ (_set_add_dst ⟨1, 2, fun _ => 0⟩ 4).1.capacity ∧
    (_set_insert_dst ⟨1, 2, fun _ => 0⟩ 4 0).1.size
      ≤ (_set_insert_dst ⟨1, 2, fun _ => 0⟩ 4 0).1.capacity ∧
    (_set_erase ⟨1, 2, fun _ => 0⟩ 4 0 1).size
      ≤ (_set_erase ⟨1, 2, fun _ => 0⟩ 4 0 1).capacity ∧
    (_set_remove ⟨1, 2, fun _ => 0⟩ 4 0).size
      ≤ (_set_remove ⟨1, 2, fun _ => 0⟩ 4 0).capacity ∧
    (set_pop ⟨1, 2, fun _ => 0⟩).size ≤ (set_pop ⟨1, 2, fun _ => 0⟩).capacity ∧
    (_set_reserve ⟨1, 2, fun _ => 0⟩ 4 9).size
      ≤ (_set_reserve ⟨1, 2, fun _ => 0⟩ 4 9).capacity ∧
    (_set_copy ⟨1, 2, fun _ => 0⟩ 4).size ≤ (_set_copy ⟨1, 2, fun _ => 0⟩ 4).capacity :=
  ⟨(size_le_capacity_spec ⟨1, 2, fun _ => 0⟩ (by decide)).1,
   (size_le_capacity_spec ⟨1, 2, fun _ => 0⟩ (by decide)).2.1 4,
   (size_le_capacity_spec ⟨1, 2, fun _ => 0⟩ (by decide)).2.2.1 4 0,
   (size_le_capacity_spec ⟨1, 2, fun _ => 0⟩ (by decide)).2.2.2.1 4 0 1 (by decide),
   (size_le_capacity_spec ⟨1, 2, fun _ => 0⟩ (by decide)).2.2.2.2.1 4 0 (by decide),
   (size_le_capacity_spec ⟨1, 2, fun _ => 0⟩ (by decide)).2.2.2.2.2.1 (by decide),
   (size_le_capacity_spec ⟨1, 2, fun _ => 0⟩ (by decide)).2.2.2.2.2.2.1 4 9,
   (size_le_capacity_spec ⟨1, 2, fun _ => 0⟩ (by decide)).2.2.2.2.2.2.2 4⟩

/-- C10: inserting at the end position (`pos = size`) is exactly the append
operation: the two calls produce the same container (same size, capacity and
bytes) and return the same slot, the one at index `size`. -/
theorem insert_at_end_eq_append_spec (c : SetC) (ts : Nat) :
    _set_insert_dst c ts c.size = _set_add_dst c ts := by
  apply Prod.ext
  · apply SetC.ext
    · rw [_set_insert_dst_size, _set_add_dst_size]
    · rw [_set_insert_dst_capacity, _set_add_dst_capacity]
    · rw [_set_insert_dst_data, _set_add_dst_data, Nat.sub_self, Nat.zero_mul, memmove_zero]
  · rw [_set_insert_dst_snd, _set_add_dst_snd, Nat.mul_comm]
